import Mathlib

set_option maxHeartbeats 1000000

/-!
Shallow embedding of the multi-counter terminal application (src/main.rs):
the data model (`Counter`, `App`), the key-event state transitions
(`App.handle_key_event` and the operations it dispatches to), and the
reachability relations used to state the invariants. Machine integers
(`u8` counter values) are modelled as `Nat` with the `u8` overflow and
underflow points checked explicitly; a debug-mode arithmetic panic or an
out-of-bounds index panic is modelled as the `panic` outcome, and a
`bail!` error as the `err` outcome carrying the mutated state.
-/

/-- A counter widget: `focused: bool` and `counter: u8`. -/
structure Counter where
  focused : Bool
  counter : Nat
deriving DecidableEq

/-- Rust `Counter::default()` (derived): unfocused, value 0. -/
def Counter.default : Counter := { focused := false, counter := 0 }

/-- Rust `Counter::start_focused()`: focused, value 0. -/
def Counter.start_focused : Counter := { focused := true, counter := 0 }

/-- The application state: `focus_on: usize`, `counters: Vec<Counter>`,
`exit: bool`. -/
structure App where
  focus_on : Nat
  counters : List Counter
  exit : Bool
deriving DecidableEq

/-- Rust `App::default()`: three counters, the first focused, all values 0,
`exit = false`. -/
def App.default : App :=
  { focus_on := 0
    counters := [Counter.start_focused, Counter.default, Counter.default]
    exit := false }

/-- Outcome of one key-event transition: `ok` (the Rust `Ok(())` with the
mutated state), `err` (a `bail!` error; the state is still mutated), or
`panic` (an unrecovered runtime fault: index out of bounds or debug-mode
integer overflow/underflow). -/
inductive KeyResult where
  | ok (a : App)
  | err (a : App) (msg : String)
  | panic
deriving DecidableEq

/-- The key codes `handle_key_event` can see: a character key, or any
other key code (arrow keys, function keys, ...), which the catch-all
arm of the `match` ignores. -/
inductive KeyCode where
  | char (c : Char)
  | other
deriving DecidableEq

/-- Replace the counter at index `i` by `f` of it; out-of-range indices
leave the list unchanged (callers guard the in-range condition where the
Rust indexing would panic). -/
def modifyAt (cs : List Counter) (i : Nat) (f : Counter → Counter) : List Counter :=
  match cs[i]? with
  | some c => cs.set i (f c)
  | none => cs

/-- Rust `App::next_counter`: clear `focused` at `focus_on`, advance
`focus_on` circularly, set `focused` at the new index. The first Rust
indexing `self.counters[self.focus_on]` panics when `focus_on` is out of
range (in particular when the list is empty), hence the guard. -/
def App.next_counter (a : App) : Option App :=
  if a.focus_on < a.counters.length then
    let cs1 := modifyAt a.counters a.focus_on (fun c => { c with focused := false })
    let newIdx := if a.focus_on = a.counters.length - 1 then 0 else a.focus_on + 1
    some { a with
      focus_on := newIdx
      counters := modifyAt cs1 newIdx (fun c => { c with focused := true }) }
  else none

/-- Rust `App::previous_counter`: clear `focused` at `focus_on`, retreat
`focus_on` circularly, set `focused` at the new index; same panic guard
as `next_counter`. -/
def App.previous_counter (a : App) : Option App :=
  if a.focus_on < a.counters.length then
    let cs1 := modifyAt a.counters a.focus_on (fun c => { c with focused := false })
    let newIdx := if a.focus_on = 0 then a.counters.length - 1 else a.focus_on - 1
    some { a with
      focus_on := newIdx
      counters := modifyAt cs1 newIdx (fun c => { c with focused := true }) }
  else none

/-- Rust `App::increment_current_counter`: `curr.counter += 1` (a `u8`
addition, panicking at 255 in debug mode), then
`bail!("counter overflow")` when the new value exceeds 2 — the mutation
has already happened, so the error carries the mutated state. -/
def App.increment_current_counter (a : App) : KeyResult :=
  match a.counters[a.focus_on]? with
  | some c =>
    if c.counter = 255 then .panic
    else
      let a2 := { a with
        counters := a.counters.set a.focus_on { c with counter := c.counter + 1 } }
      if c.counter + 1 > 2 then .err a2 "counter overflow" else .ok a2
  | none => .panic

/-- Rust `App::decrement_current_counter`: `curr.counter -= 1`, a `u8`
subtraction that panics (attempt to subtract with overflow) when the
value is already 0. -/
def App.decrement_current_counter (a : App) : KeyResult :=
  match a.counters[a.focus_on]? with
  | some c =>
    if c.counter = 0 then .panic
    else .ok { a with
      counters := a.counters.set a.focus_on { c with counter := c.counter - 1 } }
  | none => .panic

/-- Rust `App::handle_key_event`: dispatch on the key code. `q` sets the exit
flag (`self.exit()`), `l`/`h` move the focus, `j`/`k` mutate the focused
counter, anything else is ignored. -/
def App.handle_key_event (a : App) (k : KeyCode) : KeyResult :=
  match k with
  | .char c =>
    if c = 'q' then .ok { a with exit := true }
    else if c = 'l' then
      match a.next_counter with
      | some b => .ok b
      | none => .panic
    else if c = 'h' then
      match a.previous_counter with
      | some b => .ok b
      | none => .panic
    else if c = 'j' then a.decrement_current_counter
    else if c = 'k' then a.increment_current_counter
    else .ok a
  | .other => .ok a

/-- The post-state of a key-event outcome, when there is one: both `Ok`
and `Err` leave the program with a (possibly mutated) state; a panic
does not. -/
def KeyResult.state : KeyResult → Option App
  | .ok a => some a
  | .err a _ => some a
  | .panic => none

/-- One observable transition of the state machine: the post-state of
`handle_key_event`, regardless of whether it reported an error. -/
def stepState (a : App) (k : KeyCode) : Option App :=
  (a.handle_key_event k).state

/-- Apply a sequence of key presses, stopping (with no result) if any
step panics. -/
def runKeys (a : App) (ks : List KeyCode) : Option App :=
  match ks with
  | [] => some a
  | k :: rest =>
    match stepState a k with
    | some b => runKeys b rest
    | none => none

/-- States reachable from `App::default()` by `handle_key_event`
transitions, including transitions whose result is an error. -/
inductive Reachable : App → Prop where
  | init : Reachable App.default
  | step {a b : App} {k : KeyCode} : Reachable a → stepState a k = some b → Reachable b

/-- States reachable from `App::default()` by `handle_key_event`
transitions that all return `Ok`. -/
inductive ReachableOk : App → Prop where
  | init : ReachableOk App.default
  | step {a b : App} {k : KeyCode} :
      ReachableOk a → a.handle_key_event k = .ok b → ReachableOk b

/-- The focus invariant: `focus_on` indexes into `counters`, and a
counter is focused exactly when it sits at `focus_on` (so exactly one
counter is focused). -/
def focusInv (a : App) : Prop :=
  a.focus_on < a.counters.length ∧
    ∀ i, i < a.counters.length →
      (a.counters[i]?).map Counter.focused = some (decide (i = a.focus_on))

/-- Every counter value in the state is at most `n`. -/
def valuesLe (a : App) (n : Nat) : Prop :=
  ∀ c ∈ a.counters, c.counter ≤ n

/-- The spans of the instruction bar built in `App::render_frame`. -/
def instructionSpans : List String :=
  [" Decrement ", "<j>", " Increment ", "<k>", " Left ", "<h>",
   " Right ", "<l>", " Quit ", "<Q> "]

/-- The circular successor index `next_counter` moves the focus to. -/
def nextIdxOf (a : App) : Nat :=
  if a.focus_on = a.counters.length - 1 then 0 else a.focus_on + 1

/-- The circular predecessor index `previous_counter` moves the focus to. -/
def prevIdxOf (a : App) : Nat :=
  if a.focus_on = 0 then a.counters.length - 1 else a.focus_on - 1

/-- What a focus move must produce: it succeeds with a state whose focus
is `newIdx`, whose exit flag and list length are unchanged, whose new
current counter is focused and old current counter unfocused, with every
other counter untouched and no counter value changed. -/
def moveOutcome (a : App) (res : Option App) (newIdx : Nat) : Prop :=
  ∃ b, res = some b ∧
    b.focus_on = newIdx ∧
    b.exit = a.exit ∧
    b.counters.length = a.counters.length ∧
    (b.counters[newIdx]?).map Counter.focused = some true ∧
    (a.focus_on ≠ newIdx →
      (b.counters[a.focus_on]?).map Counter.focused = some false) ∧
    (∀ i : Nat, i ≠ a.focus_on → i ≠ newIdx → b.counters[i]? = a.counters[i]?) ∧
    (∀ i : Nat, (b.counters[i]?).map Counter.counter =
      (a.counters[i]?).map Counter.counter)

/-- The frame condition of `increment_current_counter` and
`decrement_current_counter`: everything except the value of the counter
at `focus_on` is unchanged. -/
def framePreserved (a b : App) : Prop :=
  b.focus_on = a.focus_on ∧
  b.exit = a.exit ∧
  b.counters.length = a.counters.length ∧
  (∀ i : Nat, i ≠ a.focus_on → b.counters[i]? = a.counters[i]?) ∧
  (b.counters[a.focus_on]?).map Counter.focused =
    (a.counters[a.focus_on]?).map Counter.focused

/-- Exactly one counter is focused, and it is the one at `focus_on`:
the counter there is focused, and any focused index equals `focus_on`. -/
def exactlyOneFocused (a : App) : Prop :=
  a.focus_on < a.counters.length ∧
  (a.counters[a.focus_on]?).map Counter.focused = some true ∧
  ∀ i, (a.counters[i]?).map Counter.focused = some true → i = a.focus_on

theorem length_modifyAt (cs : List Counter) (i : Nat) (f : Counter → Counter) :
    (modifyAt cs i f).length = cs.length := by
  unfold modifyAt
  cases h : cs[i]? with
  | none => rfl
  | some c => exact List.length_set ..

theorem getElem?_modifyAt_self (cs : List Counter) (i : Nat) (f : Counter → Counter) :
    (modifyAt cs i f)[i]? = (cs[i]?).map f := by
  unfold modifyAt
  cases h : cs[i]? with
  | none => simp [h]
  | some c =>
    have hi : i < cs.length := (List.getElem?_eq_some.mp h).1
    simp [h, List.getElem?_set_self hi]

theorem getElem?_modifyAt_ne (cs : List Counter) {i j : Nat} (f : Counter → Counter)
    (h : i ≠ j) : (modifyAt cs i f)[j]? = cs[j]? := by
  unfold modifyAt
  cases hc : cs[i]? with
  | none => rfl
  | some c => exact List.getElem?_set_ne h

theorem mem_modifyAt {cs : List Counter} {i : Nat} {f : Counter → Counter} {c : Counter}
    (h : c ∈ modifyAt cs i f) : c ∈ cs ∨ ∃ d ∈ cs, c = f d := by
  unfold modifyAt at h
  cases hc : cs[i]? with
  | none => rw [hc] at h; exact Or.inl h
  | some d =>
    rw [hc] at h
    rcases List.mem_or_eq_of_mem_set h with h1 | h1
    · exact Or.inl h1
    · exact Or.inr ⟨d, List.getElem?_mem hc, h1⟩

theorem next_counter_inv {a b : App} (h : a.next_counter = some b) :
    a.focus_on < a.counters.length ∧
      b = { a with
        focus_on := if a.focus_on = a.counters.length - 1 then 0 else a.focus_on + 1
        counters := modifyAt
          (modifyAt a.counters a.focus_on (fun c => { c with focused := false }))
          (if a.focus_on = a.counters.length - 1 then 0 else a.focus_on + 1)
          (fun c => { c with focused := true }) } := by
  unfold App.next_counter at h
  by_cases hlt : a.focus_on < a.counters.length
  · rw [if_pos hlt] at h
    dsimp only at h
    exact ⟨hlt, (Option.some_injective _ h).symm⟩
  · rw [if_neg hlt] at h
    exact absurd h (by simp)

theorem previous_counter_inv {a b : App} (h : a.previous_counter = some b) :
    a.focus_on < a.counters.length ∧
      b = { a with
        focus_on := if a.focus_on = 0 then a.counters.length - 1 else a.focus_on - 1
        counters := modifyAt
          (modifyAt a.counters a.focus_on (fun c => { c with focused := false }))
          (if a.focus_on = 0 then a.counters.length - 1 else a.focus_on - 1)
          (fun c => { c with focused := true }) } := by
  unfold App.previous_counter at h
  by_cases hlt : a.focus_on < a.counters.length
  · rw [if_pos hlt] at h
    dsimp only at h
    exact ⟨hlt, (Option.some_injective _ h).symm⟩
  · rw [if_neg hlt] at h
    exact absurd h (by simp)

theorem increment_state_inv {a b : App}
    (h : (a.increment_current_counter).state = some b) :
    ∃ c, a.counters[a.focus_on]? = some c ∧ c.counter ≠ 255 ∧
      b = { a with
        counters := a.counters.set a.focus_on { c with counter := c.counter + 1 } } := by
  unfold App.increment_current_counter at h
  cases hc : a.counters[a.focus_on]? with
  | none => rw [hc] at h; simp [KeyResult.state] at h
  | some c =>
    rw [hc] at h
    dsimp only at h
    split_ifs at h with h255 h2
    · simp [KeyResult.state] at h
    · exact ⟨c, rfl, h255, by simpa [KeyResult.state] using h.symm⟩
    · exact ⟨c, rfl, h255, by simpa [KeyResult.state] using h.symm⟩

theorem increment_ok_inv {a b : App} (h : a.increment_current_counter = .ok b) :
    ∃ c, a.counters[a.focus_on]? = some c ∧ c.counter + 1 ≤ 2 ∧
      b = { a with
        counters := a.counters.set a.focus_on { c with counter := c.counter + 1 } } := by
  unfold App.increment_current_counter at h
  cases hc : a.counters[a.focus_on]? with
  | none => rw [hc] at h; simp at h
  | some c =>
    rw [hc] at h
    dsimp only at h
    split_ifs at h with h255 h2
    · exact ⟨c, rfl, Nat.not_lt.mp h2, by simpa using h.symm⟩

theorem decrement_state_inv {a b : App}
    (h : (a.decrement_current_counter).state = some b) :
    ∃ c, a.counters[a.focus_on]? = some c ∧ c.counter ≠ 0 ∧
      b = { a with
        counters := a.counters.set a.focus_on { c with counter := c.counter - 1 } } := by
  unfold App.decrement_current_counter at h
  cases hc : a.counters[a.focus_on]? with
  | none => rw [hc] at h; simp [KeyResult.state] at h
  | some c =>
    rw [hc] at h
    dsimp only at h
    split_ifs at h with h0
    · simp [KeyResult.state] at h
    · exact ⟨c, rfl, h0, by simpa [KeyResult.state] using h.symm⟩

theorem stepState_cases {a b : App} {k : KeyCode} (h : stepState a k = some b) :
    b = a ∨ b = { a with exit := true } ∨
      a.next_counter = some b ∨ a.previous_counter = some b ∨
      (a.decrement_current_counter).state = some b ∨
      (a.increment_current_counter).state = some b := by
  cases k with
  | other =>
    left
    simpa [stepState, App.handle_key_event, KeyResult.state] using h.symm
  | char c =>
    unfold stepState App.handle_key_event at h
    dsimp only at h
    split_ifs at h with hq hl hh hj hk
    · right; left
      simpa [KeyResult.state] using h.symm
    · right; right; left
      cases hn : a.next_counter with
      | none => rw [hn] at h; simp [KeyResult.state] at h
      | some b2 =>
        rw [hn] at h
        simp only [KeyResult.state, Option.some.injEq] at h
        rw [← h]
    · right; right; right; left
      cases hn : a.previous_counter with
      | none => rw [hn] at h; simp [KeyResult.state] at h
      | some b2 =>
        rw [hn] at h
        simp only [KeyResult.state, Option.some.injEq] at h
        rw [← h]
    · right; right; right; right; left; exact h
    · right; right; right; right; right; exact h
    · left
      simpa [KeyResult.state] using h.symm

theorem handle_ok_cases {a b : App} {k : KeyCode} (h : a.handle_key_event k = .ok b) :
    b = a ∨ b = { a with exit := true } ∨
      a.next_counter = some b ∨ a.previous_counter = some b ∨
      a.decrement_current_counter = .ok b ∨
      a.increment_current_counter = .ok b := by
  cases k with
  | other =>
    left
    simpa [App.handle_key_event] using h.symm
  | char c =>
    unfold App.handle_key_event at h
    dsimp only at h
    split_ifs at h with hq hl hh hj hk
    · right; left; simpa using h.symm
    · right; right; left
      cases hn : a.next_counter with
      | none => rw [hn] at h; simp at h
      | some b2 =>
        rw [hn] at h
        simp only [KeyResult.ok.injEq] at h
        rw [← h]
    · right; right; right; left
      cases hn : a.previous_counter with
      | none => rw [hn] at h; simp at h
      | some b2 =>
        rw [hn] at h
        simp only [KeyResult.ok.injEq] at h
        rw [← h]
    · right; right; right; right; left; exact h
    · right; right; right; right; right; exact h
    · left; simpa using h.symm

theorem focusInv_move (a : App) (newIdx : Nat) (hnew : newIdx < a.counters.length)
    (ha : focusInv a) :
    focusInv { a with
      focus_on := newIdx
      counters := modifyAt
        (modifyAt a.counters a.focus_on (fun c => { c with focused := false }))
        newIdx (fun c => { c with focused := true }) } := by
  obtain ⟨hfo, hflag⟩ := ha
  have hlen1 :
      (modifyAt a.counters a.focus_on (fun c => { c with focused := false })).length =
        a.counters.length := length_modifyAt ..
  have hlen2 :
      (modifyAt (modifyAt a.counters a.focus_on (fun c => { c with focused := false }))
        newIdx (fun c => { c with focused := true })).length = a.counters.length := by
    rw [length_modifyAt, hlen1]
  constructor
  · simpa [hlen2] using hnew
  · intro i hi
    simp only at hi ⊢
    rw [hlen2] at hi
    by_cases hin : i = newIdx
    · subst hin
      rw [getElem?_modifyAt_self]
      obtain ⟨x, hx⟩ : ∃ x,
          (modifyAt a.counters a.focus_on (fun c => { c with focused := false }))[i]? =
            some x :=
        ⟨_, List.getElem?_eq_getElem (by rw [hlen1]; exact hi)⟩
      simp [hx]
    · rw [getElem?_modifyAt_ne _ _ (Ne.symm hin)]
      by_cases hio : i = a.focus_on
      · subst hio
        rw [getElem?_modifyAt_self]
        obtain ⟨x, hx⟩ : ∃ x, a.counters[a.focus_on]? = some x :=
          ⟨_, List.getElem?_eq_getElem hfo⟩
        simp [hx, hin]
      · rw [getElem?_modifyAt_ne _ _ (Ne.symm hio)]
        have h2 := hflag i hi
        rw [h2]
        simp [hio, hin]

theorem focusInv_set_value {a : App} {c : Counter} {v : Nat}
    (ha : focusInv a) (hc : a.counters[a.focus_on]? = some c) :
    focusInv { a with counters := a.counters.set a.focus_on { c with counter := v } } := by
  obtain ⟨hfo, hflag⟩ := ha
  have hfoc : c.focused = true := by
    have h2 := hflag a.focus_on hfo
    rw [hc] at h2
    simpa using h2
  constructor
  · simpa [List.length_set] using hfo
  · intro i hi
    simp only at hi ⊢
    rw [List.length_set] at hi
    by_cases hio : i = a.focus_on
    · subst hio
      rw [List.getElem?_set_self hfo]
      simp [hfoc]
    · rw [List.getElem?_set_ne (Ne.symm hio)]
      exact hflag i hi

theorem focusInv_step {a b : App} {k : KeyCode} (ha : focusInv a)
    (h : stepState a k = some b) : focusInv b := by
  rcases stepState_cases h with rfl | rfl | hn | hn | hn | hn
  · exact ha
  · exact ha
  · obtain ⟨hlt, rfl⟩ := next_counter_inv hn
    refine focusInv_move a _ ?_ ⟨hlt, ha.2⟩
    split_ifs with hend <;> omega
  · obtain ⟨hlt, rfl⟩ := previous_counter_inv hn
    refine focusInv_move a _ ?_ ⟨hlt, ha.2⟩
    split_ifs with hend <;> omega
  · obtain ⟨c, hc, h0, rfl⟩ := decrement_state_inv hn
    exact focusInv_set_value ha hc
  · obtain ⟨c, hc, h255, rfl⟩ := increment_state_inv hn
    exact focusInv_set_value ha hc

theorem valuesLe_mono {a : App} {n m : Nat} (h : valuesLe a n) (hnm : n ≤ m) :
    valuesLe a m := fun c hc => Nat.le_trans (h c hc) hnm

theorem valuesLe_move {a : App} {n : Nat} (newIdx : Nat) (ha : valuesLe a n) :
    valuesLe { a with
      focus_on := newIdx
      counters := modifyAt
        (modifyAt a.counters a.focus_on (fun c => { c with focused := false }))
        newIdx (fun c => { c with focused := true }) } n := by
  intro c hc
  rcases mem_modifyAt hc with hc1 | ⟨d, hd, rfl⟩
  · rcases mem_modifyAt hc1 with hc2 | ⟨e, he, rfl⟩
    · exact ha c hc2
    · exact ha e he
  · rcases mem_modifyAt hd with hd2 | ⟨e, he, rfl⟩
    · exact ha d hd2
    · exact ha e he

theorem valuesLe_ok_step {a b : App} {k : KeyCode} (ha : valuesLe a 2)
    (h : a.handle_key_event k = .ok b) : valuesLe b 2 := by
  rcases handle_ok_cases h with rfl | rfl | hn | hn | hn | hn
  · exact ha
  · exact ha
  · obtain ⟨hlt, rfl⟩ := next_counter_inv hn
    exact valuesLe_move _ ha
  · obtain ⟨hlt, rfl⟩ := previous_counter_inv hn
    exact valuesLe_move _ ha
  · obtain ⟨c, hc, h0, rfl⟩ :=
      decrement_state_inv (show (App.decrement_current_counter a).state = some b by
        rw [hn]; rfl)
    intro d hd
    rcases List.mem_or_eq_of_mem_set hd with hd1 | rfl
    · exact ha d hd1
    · have h2 := ha c (List.getElem?_mem hc)
      simp only
      omega
  · obtain ⟨c, hc, hle, rfl⟩ := increment_ok_inv hn
    intro d hd
    rcases List.mem_or_eq_of_mem_set hd with hd1 | rfl
    · exact ha d hd1
    · simpa using hle

theorem valuesLe_any_step {a b : App} {k : KeyCode} (ha : valuesLe a 2)
    (h : stepState a k = some b) : valuesLe b 3 := by
  rcases stepState_cases h with rfl | rfl | hn | hn | hn | hn
  · exact valuesLe_mono ha (by omega)
  · exact valuesLe_mono ha (by omega)
  · obtain ⟨hlt, rfl⟩ := next_counter_inv hn
    exact valuesLe_move _ (valuesLe_mono ha (by omega))
  · obtain ⟨hlt, rfl⟩ := previous_counter_inv hn
    exact valuesLe_move _ (valuesLe_mono ha (by omega))
  · obtain ⟨c, hc, h0, rfl⟩ := decrement_state_inv hn
    intro d hd
    rcases List.mem_or_eq_of_mem_set hd with hd1 | rfl
    · exact Nat.le_trans (ha d hd1) (by omega)
    · have h2 := ha c (List.getElem?_mem hc)
      simp only
      omega
  · obtain ⟨c, hc, h255, rfl⟩ := increment_state_inv hn
    intro d hd
    rcases List.mem_or_eq_of_mem_set hd with hd1 | rfl
    · exact Nat.le_trans (ha d hd1) (by omega)
    · have h2 := ha c (List.getElem?_mem hc)
      simp only
      omega

theorem reachableOk_valuesLe {a : App} (h : ReachableOk a) : valuesLe a 2 := by
  induction h with
  | init => intro c hc; fin_cases hc <;> decide
  | step hr hs ih => exact valuesLe_ok_step ih hs

theorem reachable_focusInv {a : App} (h : Reachable a) : focusInv a := by
  induction h with
  | init =>
    refine ⟨by decide, ?_⟩
    intro i hi
    simp only [App.default, List.length_cons, List.length_nil] at hi
    interval_cases i <;> decide
  | step hr hs ih => exact focusInv_step ih hs

theorem counter_modifyAt (cs : List Counter) (i j : Nat) (f : Counter → Counter)
    (hf : ∀ c, (f c).counter = c.counter) :
    ((modifyAt cs i f)[j]?).map Counter.counter = (cs[j]?).map Counter.counter := by
  by_cases hij : i = j
  · subst hij
    rw [getElem?_modifyAt_self]
    cases cs[i]? <;> simp [hf]
  · rw [getElem?_modifyAt_ne _ _ hij]

theorem nextIdxOf_lt {a : App} (h : a.focus_on < a.counters.length) :
    nextIdxOf a < a.counters.length := by
  unfold nextIdxOf
  split_ifs <;> omega

theorem prevIdxOf_lt {a : App} (h : a.focus_on < a.counters.length) :
    prevIdxOf a < a.counters.length := by
  unfold prevIdxOf
  split_ifs <;> omega

theorem move_shape_spec (a : App) (newIdx : Nat)
    (hfo : a.focus_on < a.counters.length) (hnew : newIdx < a.counters.length) :
    let b : App := { a with
      focus_on := newIdx
      counters := modifyAt
        (modifyAt a.counters a.focus_on (fun c => { c with focused := false }))
        newIdx (fun c => { c with focused := true }) }
    b.focus_on = newIdx ∧
    b.exit = a.exit ∧
    b.counters.length = a.counters.length ∧
    (b.counters[newIdx]?).map Counter.focused = some true ∧
    (a.focus_on ≠ newIdx →
      (b.counters[a.focus_on]?).map Counter.focused = some false) ∧
    (∀ i : Nat, i ≠ a.focus_on → i ≠ newIdx → b.counters[i]? = a.counters[i]?) ∧
    (∀ i : Nat, (b.counters[i]?).map Counter.counter =
      (a.counters[i]?).map Counter.counter) := by
  intro b
  have hlen1 :
      (modifyAt a.counters a.focus_on (fun c => { c with focused := false })).length =
        a.counters.length := length_modifyAt ..
  refine ⟨rfl, rfl, by simp only [length_modifyAt, hlen1], ?_, ?_, ?_, ?_⟩
  · show ((modifyAt (modifyAt a.counters a.focus_on
        (fun c => { c with focused := false })) newIdx
        (fun c => { c with focused := true }))[newIdx]?).map Counter.focused = some true
    rw [getElem?_modifyAt_self]
    obtain ⟨x, hx⟩ : ∃ x,
        (modifyAt a.counters a.focus_on (fun c => { c with focused := false }))[newIdx]? =
          some x :=
      ⟨_, List.getElem?_eq_getElem (by rw [hlen1]; exact hnew)⟩
    simp [hx]
  · intro hne
    show ((modifyAt (modifyAt a.counters a.focus_on
        (fun c => { c with focused := false })) newIdx
        (fun c => { c with focused := true }))[a.focus_on]?).map Counter.focused = some false
    rw [getElem?_modifyAt_ne _ _ (Ne.symm hne), getElem?_modifyAt_self]
    obtain ⟨x, hx⟩ : ∃ x, a.counters[a.focus_on]? = some x :=
      ⟨_, List.getElem?_eq_getElem hfo⟩
    simp [hx]
  · intro i hio hin
    show (modifyAt (modifyAt a.counters a.focus_on
        (fun c => { c with focused := false })) newIdx
        (fun c => { c with focused := true }))[i]? = a.counters[i]?
    rw [getElem?_modifyAt_ne _ _ (Ne.symm hin),
      getElem?_modifyAt_ne _ _ (Ne.symm hio)]
  · intro i
    show ((modifyAt (modifyAt a.counters a.focus_on
        (fun c => { c with focused := false })) newIdx
        (fun c => { c with focused := true }))[i]?).map Counter.counter =
      (a.counters[i]?).map Counter.counter
    rw [counter_modifyAt _ newIdx i (fun c => { c with focused := true }) (fun c => rfl),
      counter_modifyAt _ a.focus_on i (fun c => { c with focused := false }) (fun c => rfl)]

theorem next_counter_eq {a : App} (h : a.focus_on < a.counters.length) :
    a.next_counter = some { a with
      focus_on := nextIdxOf a
      counters := modifyAt
        (modifyAt a.counters a.focus_on (fun c => { c with focused := false }))
        (nextIdxOf a) (fun c => { c with focused := true }) } := by
  unfold App.next_counter
  rw [if_pos h]
  rfl

theorem previous_counter_eq {a : App} (h : a.focus_on < a.counters.length) :
    a.previous_counter = some { a with
      focus_on := prevIdxOf a
      counters := modifyAt
        (modifyAt a.counters a.focus_on (fun c => { c with focused := false }))
        (prevIdxOf a) (fun c => { c with focused := true }) } := by
  unfold App.previous_counter
  rw [if_pos h]
  rfl

theorem move_next_spec (a : App) (h : a.focus_on < a.counters.length) :
    moveOutcome a a.next_counter (nextIdxOf a) :=
  ⟨_, next_counter_eq h, move_shape_spec a (nextIdxOf a) h (nextIdxOf_lt h)⟩

theorem move_prev_spec (a : App) (h : a.focus_on < a.counters.length) :
    moveOutcome a a.previous_counter (prevIdxOf a) :=
  ⟨_, previous_counter_eq h, move_shape_spec a (prevIdxOf a) h (prevIdxOf_lt h)⟩

/-- C7: on a state whose focus index is in range, `focus_next` and
`focus_previous` always succeed (never an error), clear `focused` on the
old current counter, set it on the new one, move the focus circularly
(`next` wraps from the last index to 0, `previous` wraps from 0 to the
last index, otherwise they add/subtract exactly 1), and change nothing
else. -/
theorem C7_focus_move (a : App) (h : a.focus_on < a.counters.length) :
    moveOutcome a a.next_counter (nextIdxOf a) ∧
    moveOutcome a a.previous_counter (prevIdxOf a) :=
  ⟨move_next_spec a h, move_prev_spec a h⟩

/-- Witness for C7 at the initial state. -/
theorem C7_focus_move_witness :
    moveOutcome App.default App.default.next_counter (nextIdxOf App.default) :=
  (C7_focus_move App.default (by decide)).1

/-- C6: on any state with a nonempty counter list and in-range focus
index, `focus_next` then `focus_previous` — and `focus_previous` then
`focus_next` — return `focus_index` to its original value. -/
theorem C6_focus_roundtrip (a : App) (hlen : 1 ≤ a.counters.length)
    (h : a.focus_on < a.counters.length) :
    (a.next_counter.bind App.previous_counter).map App.focus_on =
      some a.focus_on ∧
    (a.previous_counter.bind App.next_counter).map App.focus_on =
      some a.focus_on := by
  constructor
  · obtain ⟨b, hb, hbf, _, hblen, _⟩ := move_next_spec a h
    rw [hb]
    show (b.previous_counter).map App.focus_on = some a.focus_on
    have hbfo : b.focus_on < b.counters.length := by
      rw [hbf, hblen]; exact nextIdxOf_lt h
    obtain ⟨b2, hb2, hb2f, _⟩ := move_prev_spec b hbfo
    rw [hb2]
    show some b2.focus_on = some a.focus_on
    have hidx : b2.focus_on = a.focus_on := by
      rw [hb2f]
      unfold prevIdxOf
      unfold nextIdxOf at hbf
      split_ifs at hbf ⊢ <;> omega
    rw [hidx]
  · obtain ⟨b, hb, hbf, _, hblen, _⟩ := move_prev_spec a h
    rw [hb]
    show (b.next_counter).map App.focus_on = some a.focus_on
    have hbfo : b.focus_on < b.counters.length := by
      rw [hbf, hblen]; exact prevIdxOf_lt h
    obtain ⟨b2, hb2, hb2f, _⟩ := move_next_spec b hbfo
    rw [hb2]
    show some b2.focus_on = some a.focus_on
    have hidx : b2.focus_on = a.focus_on := by
      rw [hb2f]
      unfold nextIdxOf
      unfold prevIdxOf at hbf
      split_ifs at hbf ⊢ <;> omega
    rw [hidx]

/-- Witness for C6 at the initial state. -/
theorem C6_focus_roundtrip_witness :
    (App.default.next_counter.bind App.previous_counter).map App.focus_on =
      some App.default.focus_on :=
  (C6_focus_roundtrip App.default (by decide) (by decide)).1

/-- C8: pressing q sets `exit = true` and changes nothing else — the
counters and focus index of the resulting state are those of the input —
and pressing q again from the resulting state leaves it unchanged. -/
theorem C8_quit_frame (a : App) :
    a.handle_key_event (.char 'q') = .ok { a with exit := true } ∧
    ({ a with exit := true } : App).counters = a.counters ∧
    ({ a with exit := true } : App).focus_on = a.focus_on ∧
    ({ a with exit := true } : App).exit = true ∧
    ({ a with exit := true } : App).handle_key_event (.char 'q') =
      .ok { a with exit := true } :=
  ⟨rfl, rfl, rfl, rfl, rfl⟩

/-- C9: only the lowercase characters q, h, l, j, k cause state
transitions; every other character — in particular the uppercase Q that
the instruction bar advertises as the quit binding — and every
non-character key leaves the state unchanged with an Ok result. -/
theorem C9_other_keys_noop (a : App) :
    a.handle_key_event (.char 'Q') = .ok a ∧
    "<Q> " ∈ instructionSpans ∧
    (∀ c : Char, c ∉ (['q', 'h', 'l', 'j', 'k'] : List Char) →
      a.handle_key_event (.char c) = .ok a) ∧
    a.handle_key_event .other = .ok a := by
  refine ⟨rfl, by simp [instructionSpans], ?_, rfl⟩
  intro c hc
  simp only [List.mem_cons, List.not_mem_nil, or_false, not_or] at hc
  obtain ⟨h1, h2, h3, h4, h5⟩ := hc
  unfold App.handle_key_event
  dsimp only
  rw [if_neg h1, if_neg h3, if_neg h2, if_neg h4, if_neg h5]

/-- Witness for C9 at the initial state and the character Z. -/
theorem C9_other_keys_noop_witness :
    App.default.handle_key_event (.char 'Z') = .ok App.default :=
  (C9_other_keys_noop App.default).2.2.1 'Z' (by decide)

/-- C10: increment and decrement modify only the value of the counter at
`focus_on`: the focus index, the exit flag, the other counters, and the
focused flag of the current counter are unchanged, whether the operation
succeeds or errors. -/
theorem C10_inc_dec_frame (a b : App)
    (h : (a.increment_current_counter).state = some b ∨
      (a.decrement_current_counter).state = some b) :
    framePreserved a b := by
  have key : ∀ (c : Counter) (v : Nat), a.counters[a.focus_on]? = some c →
      framePreserved a
        { a with counters := a.counters.set a.focus_on { c with counter := v } } := by
    intro c v hc
    have hlt : a.focus_on < a.counters.length := (List.getElem?_eq_some.mp hc).1
    refine ⟨rfl, rfl, by simp [List.length_set], ?_, ?_⟩
    · intro i hi
      show (a.counters.set a.focus_on { c with counter := v })[i]? = a.counters[i]?
      exact List.getElem?_set_ne (Ne.symm hi)
    · show ((a.counters.set a.focus_on
          { c with counter := v })[a.focus_on]?).map Counter.focused =
        (a.counters[a.focus_on]?).map Counter.focused
      rw [List.getElem?_set_self hlt, hc]
      rfl
  rcases h with h | h
  · obtain ⟨c, hc, h255, rfl⟩ := increment_state_inv h
    exact key c _ hc
  · obtain ⟨c, hc, h0, rfl⟩ := decrement_state_inv h
    exact key c _ hc

/-- Witness for C10: incrementing at the initial state. -/
theorem C10_inc_dec_frame_witness :
    framePreserved App.default
      { focus_on := 0
        counters := [{ focused := true, counter := 1 },
          { focused := false, counter := 0 }, { focused := false, counter := 0 }]
        exit := false } :=
  C10_inc_dec_frame App.default _ (Or.inl (by decide))

/-- C1 (counterexample): applying the key sequence k, k, l, k, h, j to
the initial state yields counter 0 = 1 — the final j decrements counter
0 from 2 to 1 — not 2 as the claim states. -/
theorem C1_counterexample :
    ((runKeys App.default
        [.char 'k', .char 'k', .char 'l', .char 'k', .char 'h', .char 'j']).bind
      (fun b => (b.counters[0]?).map Counter.counter)) = some 1 ∧
    (some 1 : Option Nat) ≠ some 2 :=
  ⟨by decide, by decide⟩

/-- C1 (amended): applying k, k, l, k, h, j to the initial state
succeeds at every step and yields counter 0 = 1, counter 1 = 1,
counter 2 = 0, focus index 0, exit still false. -/
theorem C1_amended_scenario :
    runKeys App.default
        [.char 'k', .char 'k', .char 'l', .char 'k', .char 'h', .char 'j'] =
      some { focus_on := 0
             counters := [{ focused := true, counter := 1 },
               { focused := false, counter := 1 }, { focused := false, counter := 0 }]
             exit := false } := by decide

/-- C2 (counterexample): the state after pressing k three times is
reachable — the third press returns the overflow error but still has a
post-state — and its counter 0 holds 3, violating the claimed bound of
2. -/
theorem C2_counterexample :
    Reachable { focus_on := 0
                counters := [{ focused := true, counter := 3 },
                  { focused := false, counter := 0 }, { focused := false, counter := 0 }]
                exit := false } ∧
    ¬ valuesLe { focus_on := 0
                 counters := [{ focused := true, counter := 3 },
                   { focused := false, counter := 0 }, { focused := false, counter := 0 }]
                 exit := false } 2 := by
  constructor
  · have h1 : stepState App.default (.char 'k') =
        some { focus_on := 0
               counters := [{ focused := true, counter := 1 },
                 { focused := false, counter := 0 }, { focused := false, counter := 0 }]
               exit := false } := by decide
    have h2 : stepState { focus_on := 0
                          counters := [{ focused := true, counter := 1 },
                            { focused := false, counter := 0 },
                            { focused := false, counter := 0 }]
                          exit := false } (.char 'k') =
        some { focus_on := 0
               counters := [{ focused := true, counter := 2 },
                 { focused := false, counter := 0 }, { focused := false, counter := 0 }]
               exit := false } := by decide
    have h3 : stepState { focus_on := 0
                          counters := [{ focused := true, counter := 2 },
                            { focused := false, counter := 0 },
                            { focused := false, counter := 0 }]
                          exit := false } (.char 'k') =
        some { focus_on := 0
               counters := [{ focused := true, counter := 3 },
                 { focused := false, counter := 0 }, { focused := false, counter := 0 }]
               exit := false } := by decide
    exact Reachable.step (Reachable.step (Reachable.step Reachable.init h1) h2) h3
  · intro hv
    have h4 := hv { focused := true, counter := 3 } (by simp)
    exact absurd h4 (by decide)

/-- C2 (amended): every state reachable by transitions that all return
Ok has every counter value at most 2, and one further transition from
such a state — even one whose result is the overflow error — leaves
every counter value at most 3. -/
theorem C2_amended_invariant :
    (∀ a : App, ReachableOk a → valuesLe a 2) ∧
    (∀ (a b : App) (k : KeyCode), ReachableOk a → stepState a k = some b →
      valuesLe b 3) :=
  ⟨fun _ h => reachableOk_valuesLe h,
   fun _ _ _ h hs => valuesLe_any_step (reachableOk_valuesLe h) hs⟩

/-- Witness for C2 (amended) at the initial state. -/
theorem C2_amended_invariant_witness : valuesLe App.default 2 :=
  C2_amended_invariant.1 App.default ReachableOk.init

/-- C3: incrementing the focused counter at value 0 or 1 returns Ok with
the value increased by exactly 1; at value 2 it returns the
"counter overflow" error with the counter left at the invalid value 3 —
the state is mutated despite the error. -/
theorem C3_increment_cases (a : App) (c : Counter)
    (hc : a.counters[a.focus_on]? = some c) :
    (c.counter = 0 ∨ c.counter = 1 →
      a.increment_current_counter =
        .ok { a with counters :=
                a.counters.set a.focus_on { c with counter := c.counter + 1 } }) ∧
    (c.counter = 2 →
      a.increment_current_counter =
        .err { a with counters :=
                 a.counters.set a.focus_on { c with counter := 3 } }
          "counter overflow") := by
  constructor
  · intro h01
    unfold App.increment_current_counter
    rw [hc]
    dsimp only
    rcases h01 with h | h <;> rw [h] <;> rfl
  · intro h2
    unfold App.increment_current_counter
    rw [hc]
    dsimp only
    rw [h2]
    rfl

/-- Witness for C3: incrementing at the initial state (value 0). -/
theorem C3_increment_cases_witness :
    App.default.increment_current_counter =
      .ok { App.default with
            counters := App.default.counters.set App.default.focus_on
              { Counter.start_focused with
                counter := Counter.start_focused.counter + 1 } } :=
  (C3_increment_cases App.default Counter.start_focused rfl).1 (Or.inl rfl)

/-- C4: decrementing the focused counter at value 1 or 2 (indeed at any
value ≥ 1) returns Ok with the value decreased by exactly 1; at value 0
the u8 subtraction underflows, an unrecovered panic rather than a typed
error, so the underflow branch is reached exactly when the precondition
value ≥ 1 is violated. -/
theorem C4_decrement_cases (a : App) (c : Counter)
    (hc : a.counters[a.focus_on]? = some c) :
    (c.counter = 1 ∨ c.counter = 2 →
      a.decrement_current_counter =
        .ok { a with counters :=
                a.counters.set a.focus_on { c with counter := c.counter - 1 } }) ∧
    (1 ≤ c.counter →
      a.decrement_current_counter =
        .ok { a with counters :=
                a.counters.set a.focus_on { c with counter := c.counter - 1 } }) ∧
    (c.counter = 0 → a.decrement_current_counter = .panic) := by
  have hok : 1 ≤ c.counter →
      a.decrement_current_counter =
        .ok { a with counters :=
                a.counters.set a.focus_on { c with counter := c.counter - 1 } } := by
    intro h1
    unfold App.decrement_current_counter
    rw [hc]
    dsimp only
    rw [if_neg (by omega)]
  refine ⟨fun h12 => hok (by rcases h12 with h | h <;> omega), hok, ?_⟩
  intro h0
  unfold App.decrement_current_counter
  rw [hc]
  dsimp only
  rw [if_pos h0]

/-- Witness for C4: decrementing at the initial state (value 0) is the
modelled panic. -/
theorem C4_decrement_cases_witness :
    App.default.decrement_current_counter = KeyResult.panic :=
  (C4_decrement_cases App.default Counter.start_focused rfl).2.2 rfl

/-- C5: in every state reachable from the initial state by any sequence
of `handle_key_event` transitions (error results included), exactly one
counter is focused, and it is the counter at `focus_on`. -/
theorem C5_focus_unique (a : App) (h : Reachable a) : exactlyOneFocused a := by
  obtain ⟨hfo, hflag⟩ := reachable_focusInv h
  refine ⟨hfo, ?_, ?_⟩
  · rw [hflag a.focus_on hfo]
    simp
  · intro i hi
    have hlen : i < a.counters.length := by
      by_contra hge
      rw [List.getElem?_eq_none (Nat.le_of_not_lt hge)] at hi
      simp at hi
    have h2 := hflag i hlen
    rw [h2] at hi
    simpa using hi

/-- Witness for C5 at the initial state. -/
theorem C5_focus_unique_witness : exactlyOneFocused App.default :=
  C5_focus_unique App.default Reachable.init
